import Mathlib

/-!
Verification of the rolling-ball baseline algorithm
(`src/rollingBall.ts` of ml-rolling-ball-baseline).

The source is embedded shallowly:
* signals are lists of exact rationals (the TS code computes in IEEE doubles;
  the algorithm uses only `min`, `max`, sums and one division per output
  point, and every claim below is about the exact-arithmetic behaviour);
* the JavaScript-level input contract (`isAnyArray` check, emptiness check,
  thrown errors) is embedded via an explicit value type `JsValue` and an
  `Except` result;
* the helpers `xMinValue`, `xMaxValue`, `xMean` of `ml-spectra-processing`
  are embedded by their documented behaviour on the index ranges the
  algorithm passes them (first element of the range, folded with
  `min` / `max`; arithmetic mean = sum divided by length).
-/

namespace RollingBall

/-- A JavaScript value, as far as the input contract of `rollingBall` can
observe it: `null`/`undefined`, booleans, numbers, strings, and arrays. -/
inductive JsValue where
  | null
  | undef
  | bool (b : Bool)
  | num (q : ℚ)
  | str (s : String)
  | arr (elems : List JsValue)

/-- The `isAnyArray` predicate of the `is-any-array` package: true exactly
for (typed) arrays. -/
def isAnyArray : JsValue → Bool
  | .arr _ => true
  | _ => false

/-- Numeric reading of an array element once the pipeline runs on it.  A
non-numeric element yields NaN-like garbage in JavaScript; the placeholder
value `0` stands for that garbage.  No claim depends on the numeric result
for a non-numeric element, only on the fact that no error is raised. -/
def JsValue.toNum : JsValue → ℚ
  | .num q => q
  | _ => 0

/-- The contiguous sub-range `[fromIndex, toIndex)` of a list: the semantics
of `Float64Array.subarray(fromIndex, toIndex)` and of the
`fromIndex`/`toIndex` options of the `x*` helpers. -/
def sliceOf (xs : List ℚ) (fromIndex toIndex : Nat) : List ℚ :=
  (xs.drop fromIndex).take (toIndex - fromIndex)

/-- Helper `xMinValue(xs, \x7b fromIndex, toIndex \x7d)` of `ml-spectra-processing`:
the running minimum over the range, seeded with its first element.  The
empty-range branch is never reached by `rollingBall` (its windows always
contain the centre index). -/
def xMinValue (xs : List ℚ) (fromIndex toIndex : Nat) : ℚ :=
  match sliceOf xs fromIndex toIndex with
  | [] => 0
  | a :: rest => rest.foldl min a

/-- Helper `xMaxValue(xs, \x7b fromIndex, toIndex \x7d)`: the running maximum over
the range, seeded with its first element. -/
def xMaxValue (xs : List ℚ) (fromIndex toIndex : Nat) : ℚ :=
  match sliceOf xs fromIndex toIndex with
  | [] => 0
  | a :: rest => rest.foldl max a

/-- Helper `xMean(xs)`: the arithmetic mean, sum divided by length. -/
def xMean (xs : List ℚ) : ℚ := xs.sum / (xs.length : ℚ)

/-- First pass of `rollingBall` (source lines 57–65): for each index `i`,
the minimum of the spectrum over the clipped window
`[max(0, i − windowM), min(i + windowM + 1, N))`.  `Math.max(0, i − windowM)`
is exactly truncated subtraction on `Nat`. -/
def minimaPass (spectrum : List ℚ) (windowM : Nat) : List ℚ :=
  (List.range spectrum.length).map fun i =>
    xMinValue spectrum (i - windowM) (min (i + windowM + 1) spectrum.length)

/-- Second pass (source lines 68–75): same window formula with the same
radius `windowM`, taking the maximum over the minima array. -/
def maximaPass (minima : List ℚ) (windowM : Nat) : List ℚ :=
  (List.range minima.length).map fun i =>
    xMaxValue minima (i - windowM) (min (i + windowM + 1) minima.length)

/-- Third pass (source lines 77–81): mean of the maxima array over the
clipped window of radius `windowS`. -/
def smoothPass (maxima : List ℚ) (windowS : Nat) : List ℚ :=
  (List.range maxima.length).map fun i =>
    xMean (sliceOf maxima (i - windowS) (min (i + windowS + 1) maxima.length))

/-- The numeric core of `rollingBall`: minima pass, maxima pass over the
minima, smoothing pass over the maxima; the baseline is returned. -/
def rollingBall (spectrum : List ℚ) (windowM windowS : Nat) : List ℚ :=
  smoothPass (maximaPass (minimaPass spectrum windowM) windowM) windowS

/-- The two error kinds of the input contract. `invalidInput` is the thrown
`Error('Spectrum must be an array')`, `emptyInput` the thrown
`TypeError('Spectrum must not be empty')`. -/
inductive RBError where
  | invalidInput
  | emptyInput
deriving DecidableEq

/-- The options object: two independently optional window radii. -/
structure Options where
  windowM : Option Nat
  windowS : Option Nat
deriving DecidableEq

/-- Model of `Math.round` on a non-negative rational: round half away from zero,
i.e. `⌊q + 1/2⌋` (JavaScript rounds halves toward +∞).  The default radii
`N * 0.04` and `N * 0.08` are never half-integers, so the tie-breaking rule
is immaterial for them. -/
def mathRound (q : ℚ) : Nat := (⌊q + 1 / 2⌋).toNat

/-- Default minimisation/maximisation radius: `Math.round(numberPoints * 0.04)`. -/
def defaultWindowM (numberPoints : Nat) : Nat :=
  mathRound ((numberPoints : ℚ) * (4 / 100))

/-- Default smoothing radius: `Math.round(numberPoints * 0.08)`. -/
def defaultWindowS (numberPoints : Nat) : Nat :=
  mathRound ((numberPoints : ℚ) * (8 / 100))

/-- The exported `rollingBall` function (source lines 32–84): the
`isAnyArray` guard, the emptiness guard, the defaulting destructuring of
the options object, then the three-pass numeric core. -/
def rollingBallJs (spectrum : JsValue) (options : Options) :
    Except RBError (List ℚ) :=
  match spectrum with
  | .arr elems =>
    if elems.length = 0 then .error .emptyInput
    else
      .ok (rollingBall (elems.map JsValue.toNum)
        (options.windowM.getD (defaultWindowM elems.length))
        (options.windowS.getD (defaultWindowS elems.length)))
  | _ => .error .invalidInput

/-! ### The specification's reference definition (spec §4.1)

These definitions follow the wording of the spec, not the source: windows
are described as index ranges `[windowLeft, windowRight)` with
`windowLeft = max(0, i − r)` and `windowRight = min(i + r + 1, N)`, and each
pass takes the min / max / mean of the previous sequence over those indices. -/

/-- The index window of the spec: `windowLeft = max(0, i − r)` up to the
exclusive bound `windowRight = min(i + r + 1, n)`. -/
def windowIdx (n i r : Nat) : List Nat :=
  List.range' (i - r) (min (i + r + 1) n - (i - r))

/-- Spec stage 1: `minima[i] = min(signal[windowLeft .. windowRight))`. -/
def specMinima (signal : List ℚ) (windowM : Nat) : List ℚ :=
  (List.range signal.length).map fun i =>
    (((windowIdx signal.length i windowM).map fun j => signal.getD j 0).min?).getD 0

/-- Spec stage 2: `maxima[i] = max(minima[windowLeft .. windowRight))`,
same window formula and radius as stage 1. -/
def specMaxima (signal : List ℚ) (windowM : Nat) : List ℚ :=
  (List.range signal.length).map fun i =>
    (((windowIdx signal.length i windowM).map fun j =>
      (specMinima signal windowM).getD j 0).max?).getD 0

/-- Spec stage 3: `baseline[i] = mean(maxima[windowLeft .. windowRight))`
with radius `windowS`. -/
def specBaseline (signal : List ℚ) (windowM windowS : Nat) : List ℚ :=
  (List.range signal.length).map fun i =>
    (((windowIdx signal.length i windowS).map fun j =>
      (specMaxima signal windowM).getD j 0).sum) /
    (((windowIdx signal.length i windowS).length : ℚ))

/-! ### Generic lemmas about the embedded helpers -/

theorem length_minimaPass (s : List ℚ) (r : Nat) :
    (minimaPass s r).length = s.length := by
  simp [minimaPass]

theorem length_maximaPass (s : List ℚ) (r : Nat) :
    (maximaPass s r).length = s.length := by
  simp [maximaPass]

theorem length_smoothPass (s : List ℚ) (r : Nat) :
    (smoothPass s r).length = s.length := by
  simp [smoothPass]

theorem length_rollingBall (s : List ℚ) (wM wS : Nat) :
    (rollingBall s wM wS).length = s.length := by
  simp [rollingBall, length_smoothPass, length_maximaPass, length_minimaPass]

theorem foldl_min_le_seed (t : List ℚ) (a : ℚ) : t.foldl min a ≤ a := by
  induction t generalizing a with
  | nil => exact le_refl a
  | cons x xs ih => exact le_trans (ih (min a x)) (min_le_left a x)

theorem foldl_min_le_mem (t : List ℚ) (a x : ℚ) (hx : x ∈ t) :
    t.foldl min a ≤ x := by
  induction t generalizing a with
  | nil => cases hx
  | cons y ys ih =>
    rcases List.mem_cons.1 hx with rfl | hmem
    · exact le_trans (foldl_min_le_seed ys (min a x)) (min_le_right a x)
    · exact ih (min a y) hmem

theorem le_foldl_min (t : List ℚ) (a c : ℚ) (ha : c ≤ a)
    (h : ∀ x ∈ t, c ≤ x) : c ≤ t.foldl min a := by
  induction t generalizing a with
  | nil => exact ha
  | cons y ys ih =>
    exact ih (min a y) (le_min ha (h y (List.mem_cons_self y ys)))
      (fun x hx => h x (List.mem_cons_of_mem y hx))

theorem foldl_min_mem (t : List ℚ) (a : ℚ) : t.foldl min a ∈ a :: t := by
  induction t generalizing a with
  | nil => exact List.mem_singleton.2 rfl
  | cons y ys ih =>
    show ys.foldl min (min a y) ∈ a :: y :: ys
    rcases List.mem_cons.1 (ih (min a y)) with h2 | h2
    · rw [h2]
      rcases min_cases a y with ⟨he, _⟩ | ⟨he, _⟩ <;> rw [he]
      · exact List.mem_cons_self a (y :: ys)
      · exact List.mem_cons_of_mem a (List.mem_cons_self y ys)
    · exact List.mem_cons_of_mem a (List.mem_cons_of_mem y h2)

theorem seed_le_foldl_max (t : List ℚ) (a : ℚ) : a ≤ t.foldl max a := by
  induction t generalizing a with
  | nil => exact le_refl a
  | cons x xs ih => exact le_trans (le_max_left a x) (ih (max a x))

theorem mem_le_foldl_max (t : List ℚ) (a x : ℚ) (hx : x ∈ t) :
    x ≤ t.foldl max a := by
  induction t generalizing a with
  | nil => cases hx
  | cons y ys ih =>
    rcases List.mem_cons.1 hx with rfl | hmem
    · exact le_trans (le_max_right a x) (seed_le_foldl_max ys (max a x))
    · exact ih (max a y) hmem

theorem foldl_max_le (t : List ℚ) (a c : ℚ) (ha : a ≤ c)
    (h : ∀ x ∈ t, x ≤ c) : t.foldl max a ≤ c := by
  induction t generalizing a with
  | nil => exact ha
  | cons y ys ih =>
    exact ih (max a y) (max_le ha (h y (List.mem_cons_self y ys)))
      (fun x hx => h x (List.mem_cons_of_mem y hx))

theorem foldl_max_mem (t : List ℚ) (a : ℚ) : t.foldl max a ∈ a :: t := by
  induction t generalizing a with
  | nil => exact List.mem_singleton.2 rfl
  | cons y ys ih =>
    show ys.foldl max (max a y) ∈ a :: y :: ys
    rcases List.mem_cons.1 (ih (max a y)) with h2 | h2
    · rw [h2]
      rcases max_cases a y with ⟨he, _⟩ | ⟨he, _⟩ <;> rw [he]
      · exact List.mem_cons_self a (y :: ys)
      · exact List.mem_cons_of_mem a (List.mem_cons_self y ys)
    · exact List.mem_cons_of_mem a (List.mem_cons_of_mem y h2)

theorem length_sliceOf (xs : List ℚ) (a b : Nat) :
    (sliceOf xs a b).length = min (b - a) (xs.length - a) := by
  simp [sliceOf]

theorem sliceOf_sublist (xs : List ℚ) (a b : Nat) : (sliceOf xs a b).Sublist xs :=
  (List.take_sublist _ _).trans (List.drop_sublist a xs)

theorem sliceOf_subset (xs : List ℚ) (a b : Nat) {x : ℚ}
    (hx : x ∈ sliceOf xs a b) : x ∈ xs :=
  (sliceOf_sublist xs a b).subset hx

theorem sliceOf_zero_length (xs : List ℚ) : sliceOf xs 0 xs.length = xs := by
  simp [sliceOf]

theorem sliceOf_eq_map (xs : List ℚ) (a b : Nat) (hb : b ≤ xs.length) :
    sliceOf xs a b = (List.range' a (b - a)).map (fun j => xs.getD j 0) := by
  apply List.ext_getElem
  · simp [sliceOf]
    omega
  · intro i h1 h2
    have hlen : i < xs.length - a := by
      have := h1
      simp [sliceOf] at this
      omega
    have hia : a + i < xs.length := by omega
    simp [sliceOf, List.getElem_take, List.getElem_drop, List.getElem_range',
      List.getD_eq_getElem?_getD, List.getElem?_eq_getElem hia]

theorem getD_mem_sliceOf (xs : List ℚ) (a b i : Nat)
    (ha : a ≤ i) (hb : i < b) (hib : b ≤ xs.length) :
    xs.getD i 0 ∈ sliceOf xs a b := by
  rw [sliceOf_eq_map xs a b hib]
  exact List.mem_map.2 ⟨i, List.mem_range'_1.2 ⟨ha, by omega⟩, rfl⟩

theorem xMinValue_eq_min? (xs : List ℚ) (a b : Nat) :
    xMinValue xs a b = (sliceOf xs a b).min?.getD 0 := by
  cases h : sliceOf xs a b with
  | nil => simp only [xMinValue, h]; rfl
  | cons c t => simp only [xMinValue, h]; rfl

theorem xMaxValue_eq_max? (xs : List ℚ) (a b : Nat) :
    xMaxValue xs a b = (sliceOf xs a b).max?.getD 0 := by
  cases h : sliceOf xs a b with
  | nil => simp only [xMaxValue, h]; rfl
  | cons c t => simp only [xMaxValue, h]; rfl

/-! ### The three passes agree pointwise with the spec's formulas -/

theorem minimaPass_eq_spec (s : List ℚ) (w : Nat) :
    minimaPass s w = specMinima s w := by
  apply List.ext_getElem
  · simp [minimaPass, specMinima]
  · intro i h1 h2
    simp only [minimaPass, specMinima, List.getElem_map, List.getElem_range]
    rw [xMinValue_eq_min?,
      sliceOf_eq_map s (i - w) (min (i + w + 1) s.length) (min_le_right _ _)]
    rfl

theorem maximaPass_eq_spec (s : List ℚ) (w : Nat) :
    maximaPass (minimaPass s w) w = specMaxima s w := by
  apply List.ext_getElem
  · simp [maximaPass, specMaxima, length_minimaPass]
  · intro i h1 h2
    simp only [maximaPass, specMaxima, List.getElem_map, List.getElem_range]
    rw [xMaxValue_eq_max?,
      sliceOf_eq_map _ _ _ (min_le_right _ _), length_minimaPass,
      minimaPass_eq_spec]
    rfl

theorem smoothPass_eq_spec (s : List ℚ) (wM wS : Nat) :
    smoothPass (maximaPass (minimaPass s wM) wM) wS = specBaseline s wM wS := by
  apply List.ext_getElem
  · simp [smoothPass, specBaseline, length_maximaPass, length_minimaPass]
  · intro i h1 h2
    simp only [smoothPass, specBaseline, List.getElem_map, List.getElem_range]
    rw [xMean, sliceOf_eq_map _ _ _ (min_le_right _ _), length_maximaPass,
      length_minimaPass, maximaPass_eq_spec]
    simp [windowIdx]

example : minimaPass [5, 1, 5, 1, 5, 1, 5] 1 = [1, 1, 1, 1, 1, 1, 1] := by decide

example : rollingBall [3, 1, 2] 1 0 = [1, 1, 1] := by
  norm_num [rollingBall, smoothPass, maximaPass, minimaPass, xMinValue,
    xMaxValue, xMean, sliceOf, List.range_succ]

example : specBaseline [3, 1, 2] 1 0 = [1, 1, 1] := by
  norm_num [specBaseline, specMaxima, specMinima, windowIdx, List.range_succ,
    List.range'_succ]

example : rollingBall [4, 0, 6, 2] 1 1 = specBaseline [4, 0, 6, 2] 1 1 := by
  norm_num [rollingBall, smoothPass, maximaPass, minimaPass, xMinValue,
    xMaxValue, xMean, sliceOf, specBaseline, specMaxima, specMinima, windowIdx,
    List.range_succ, List.range'_succ]

example : rollingBallJs (.arr []) ⟨none, none⟩ = .error .emptyInput := rfl

example : rollingBallJs .null ⟨none, none⟩ = .error .invalidInput := rfl

/-! ### Degenerate windows: singleton slices and constant inputs -/

theorem sliceOf_singleton (xs : List ℚ) (i : Nat) (hi : i < xs.length) :
    sliceOf xs i (i + 1) = [xs.getD i 0] := by
  rw [sliceOf_eq_map xs i (i + 1) (by omega)]
  have h1 : i + 1 - i = 1 := by omega
  rw [h1]
  rfl

theorem minimaPass_zero (s : List ℚ) : minimaPass s 0 = s := by
  apply List.ext_getElem
  · simp [minimaPass]
  · intro i h1 h2
    simp only [minimaPass, List.getElem_map, List.getElem_range]
    have hmin : min (i + 0 + 1) s.length = i + 1 := by omega
    rw [xMinValue_eq_min?, hmin, Nat.sub_zero, sliceOf_singleton s i h2]
    show s.getD i 0 = s[i]
    simp [List.getD_eq_getElem?_getD, List.getElem?_eq_getElem h2]

theorem maximaPass_zero (s : List ℚ) : maximaPass s 0 = s := by
  apply List.ext_getElem
  · simp [maximaPass]
  · intro i h1 h2
    simp only [maximaPass, List.getElem_map, List.getElem_range]
    have hmin : min (i + 0 + 1) s.length = i + 1 := by omega
    rw [xMaxValue_eq_max?, hmin, Nat.sub_zero, sliceOf_singleton s i h2]
    show s.getD i 0 = s[i]
    simp [List.getD_eq_getElem?_getD, List.getElem?_eq_getElem h2]

theorem sliceOf_replicate (n : Nat) (c : ℚ) (a b : Nat) :
    sliceOf (List.replicate n c) a b = List.replicate (min (b - a) (n - a)) c := by
  simp [sliceOf, List.drop_replicate, List.take_replicate]

theorem foldl_min_replicate (k : Nat) (c : ℚ) :
    (List.replicate k c).foldl min c = c := by
  induction k with
  | zero => rfl
  | succ m ih => simpa [List.replicate_succ, min_self] using ih

theorem foldl_max_replicate (k : Nat) (c : ℚ) :
    (List.replicate k c).foldl max c = c := by
  induction k with
  | zero => rfl
  | succ m ih => simpa [List.replicate_succ, max_self] using ih

theorem xMinValue_replicate (n : Nat) (c : ℚ) (a b : Nat)
    (hab : a < b) (han : a < n) :
    xMinValue (List.replicate n c) a b = c := by
  have hk : min (b - a) (n - a) = (min (b - a) (n - a) - 1) + 1 := by omega
  simp only [xMinValue]
  rw [sliceOf_replicate, hk, List.replicate_succ]
  exact foldl_min_replicate _ c

theorem xMaxValue_replicate (n : Nat) (c : ℚ) (a b : Nat)
    (hab : a < b) (han : a < n) :
    xMaxValue (List.replicate n c) a b = c := by
  have hk : min (b - a) (n - a) = (min (b - a) (n - a) - 1) + 1 := by omega
  simp only [xMaxValue]
  rw [sliceOf_replicate, hk, List.replicate_succ]
  exact foldl_max_replicate _ c

theorem xMean_replicate (k : Nat) (c : ℚ) (hk : k ≠ 0) :
    xMean (List.replicate k c) = c := by
  have hck : (k : ℚ) ≠ 0 := Nat.cast_ne_zero.2 hk
  rw [xMean, List.sum_replicate, List.length_replicate, nsmul_eq_mul,
    mul_comm, mul_div_assoc, div_self hck, mul_one]

theorem minimaPass_replicate (n r : Nat) (c : ℚ) :
    minimaPass (List.replicate n c) r = List.replicate n c := by
  apply List.ext_getElem
  · simp [minimaPass]
  · intro i h1 h2
    have h2' : i < n := by simpa using h2
    simp only [minimaPass, List.getElem_map, List.getElem_range,
      List.length_replicate, List.getElem_replicate]
    exact xMinValue_replicate n c _ _ (by omega) (by omega)

theorem maximaPass_replicate (n r : Nat) (c : ℚ) :
    maximaPass (List.replicate n c) r = List.replicate n c := by
  apply List.ext_getElem
  · simp [maximaPass]
  · intro i h1 h2
    have h2' : i < n := by simpa using h2
    simp only [maximaPass, List.getElem_map, List.getElem_range,
      List.length_replicate, List.getElem_replicate]
    exact xMaxValue_replicate n c _ _ (by omega) (by omega)

theorem smoothPass_replicate (n r : Nat) (c : ℚ) :
    smoothPass (List.replicate n c) r = List.replicate n c := by
  apply List.ext_getElem
  · simp [smoothPass]
  · intro i h1 h2
    have h2' : i < n := by simpa using h2
    simp only [smoothPass, List.getElem_map, List.getElem_range,
      List.length_replicate, List.getElem_replicate]
    rw [sliceOf_replicate]
    exact xMean_replicate _ c (by omega)

theorem rollingBall_replicate (n : Nat) (c : ℚ) (wM wS : Nat) :
    rollingBall (List.replicate n c) wM wS = List.replicate n c := by
  show smoothPass (maximaPass (minimaPass (List.replicate n c) wM) wM) wS =
    List.replicate n c
  rw [minimaPass_replicate, maximaPass_replicate, smoothPass_replicate]

/-! ### Full-width windows -/

theorem minimaPass_full (s : List ℚ) (wM : Nat) (hw : s.length - 1 ≤ wM) :
    minimaPass s wM = List.replicate s.length (xMinValue s 0 s.length) := by
  apply List.ext_getElem
  · simp [minimaPass]
  · intro i h1 h2
    have h2' : i < s.length := by simpa using h2
    simp only [minimaPass, List.getElem_map, List.getElem_range,
      List.getElem_replicate]
    have ha : i - wM = 0 := by omega
    have hb : min (i + wM + 1) s.length = s.length := by omega
    rw [ha, hb]

/-! ### Pointwise views of the passes and bounds for the mean -/

theorem minimaPass_getD (s : List ℚ) (r i : Nat) (hi : i < s.length) :
    (minimaPass s r).getD i 0 =
      xMinValue s (i - r) (min (i + r + 1) s.length) := by
  have hlen : i < (minimaPass s r).length := by rw [length_minimaPass]; exact hi
  simp [minimaPass, List.getD_eq_getElem?_getD,
    List.getElem?_eq_getElem hlen, length_minimaPass, List.getElem?_range hi]

theorem maximaPass_getD (s : List ℚ) (r i : Nat) (hi : i < s.length) :
    (maximaPass s r).getD i 0 =
      xMaxValue s (i - r) (min (i + r + 1) s.length) := by
  have hlen : i < (maximaPass s r).length := by rw [length_maximaPass]; exact hi
  simp [maximaPass, List.getD_eq_getElem?_getD,
    List.getElem?_eq_getElem hlen, length_maximaPass, List.getElem?_range hi]

theorem smoothPass_getD (s : List ℚ) (r i : Nat) (hi : i < s.length) :
    (smoothPass s r).getD i 0 =
      xMean (sliceOf s (i - r) (min (i + r + 1) s.length)) := by
  have hlen : i < (smoothPass s r).length := by rw [length_smoothPass]; exact hi
  simp [smoothPass, List.getD_eq_getElem?_getD,
    List.getElem?_eq_getElem hlen, length_smoothPass, List.getElem?_range hi]

theorem xMinValue_le_mem (xs : List ℚ) (a b : Nat) (x : ℚ)
    (hx : x ∈ sliceOf xs a b) : xMinValue xs a b ≤ x := by
  simp only [xMinValue]
  cases h : sliceOf xs a b with
  | nil => rw [h] at hx; cases hx
  | cons c t =>
    rw [h] at hx
    rcases List.mem_cons.1 hx with rfl | hx
    · exact foldl_min_le_seed t x
    · exact foldl_min_le_mem t c x hx

theorem mem_le_xMaxValue (xs : List ℚ) (a b : Nat) (x : ℚ)
    (hx : x ∈ sliceOf xs a b) : x ≤ xMaxValue xs a b := by
  simp only [xMaxValue]
  cases h : sliceOf xs a b with
  | nil => rw [h] at hx; cases hx
  | cons c t =>
    rw [h] at hx
    rcases List.mem_cons.1 hx with rfl | hx
    · exact seed_le_foldl_max t x
    · exact mem_le_foldl_max t c x hx

theorem xMinValue_global_le (xs : List ℚ) (x : ℚ) (hx : x ∈ xs) :
    xMinValue xs 0 xs.length ≤ x := by
  apply xMinValue_le_mem
  rw [sliceOf_zero_length]
  exact hx

theorem le_xMaxValue_global (xs : List ℚ) (x : ℚ) (hx : x ∈ xs) :
    x ≤ xMaxValue xs 0 xs.length := by
  apply mem_le_xMaxValue
  rw [sliceOf_zero_length]
  exact hx

theorem foldl_min_le_xMean (a : ℚ) (t : List ℚ) :
    t.foldl min a ≤ xMean (a :: t) := by
  have hpos : (0 : ℚ) < (((a :: t).length : Nat) : ℚ) := by
    exact_mod_cast Nat.succ_pos t.length
  rw [xMean, le_div_iff₀ hpos]
  have hb : ∀ x ∈ a :: t, t.foldl min a ≤ x := by
    intro x hx
    rcases List.mem_cons.1 hx with rfl | hx
    · exact foldl_min_le_seed t x
    · exact foldl_min_le_mem t a x hx
  calc t.foldl min a * (((a :: t).length : Nat) : ℚ)
      = ((a :: t).length : Nat) • t.foldl min a := by
        rw [nsmul_eq_mul, mul_comm]
    _ ≤ (a :: t).sum := List.card_nsmul_le_sum _ _ hb

theorem xMean_le_foldl_max (a : ℚ) (t : List ℚ) :
    xMean (a :: t) ≤ t.foldl max a := by
  have hpos : (0 : ℚ) < (((a :: t).length : Nat) : ℚ) := by
    exact_mod_cast Nat.succ_pos t.length
  rw [xMean, div_le_iff₀ hpos]
  have hb : ∀ x ∈ a :: t, x ≤ t.foldl max a := by
    intro x hx
    rcases List.mem_cons.1 hx with rfl | hx
    · exact seed_le_foldl_max t x
    · exact mem_le_foldl_max t a x hx
  calc (a :: t).sum ≤ ((a :: t).length : Nat) • t.foldl max a :=
        List.sum_le_card_nsmul _ _ hb
    _ = t.foldl max a * (((a :: t).length : Nat) : ℚ) := by
        rw [nsmul_eq_mul, mul_comm]

/-! ### The claims -/

/-- C1: for every signal of length N ≥ 1 and non-negative integer radii
`windowM`, `windowS`, the result of `rollingBall` equals the spec's
three-pass reference definition: `minima[i]` is the minimum of the signal
over `[max(0, i − windowM), min(i + windowM + 1, N))`, `maxima[i]` is the
maximum of the minima over the same window formula with the same radius,
`baseline[i]` is the arithmetic mean of the maxima over the radius-`windowS`
window, and the returned sequence is this baseline. -/
theorem claim1_rollingBall_eq_reference (s : List ℚ) (wM wS : Nat)
    (_h : 1 ≤ s.length) :
    minimaPass s wM = specMinima s wM ∧
    maximaPass (minimaPass s wM) wM = specMaxima s wM ∧
    rollingBall s wM wS = specBaseline s wM wS :=
  ⟨minimaPass_eq_spec s wM, maximaPass_eq_spec s wM, smoothPass_eq_spec s wM wS⟩

theorem claim1_witness :
    minimaPass [5, 1, 4, 1, 5] 1 = specMinima [5, 1, 4, 1, 5] 1 ∧
    maximaPass (minimaPass [5, 1, 4, 1, 5] 1) 1 = specMaxima [5, 1, 4, 1, 5] 1 ∧
    rollingBall [5, 1, 4, 1, 5] 1 2 = specBaseline [5, 1, 4, 1, 5] 1 2 :=
  claim1_rollingBall_eq_reference [5, 1, 4, 1, 5] 1 2 (by decide)

/-- C2: for every valid signal of length N ≥ 1 and any window options,
`rollingBall` returns (does not raise) a sequence whose length equals N. -/
theorem claim2_length_preserved (xs : List ℚ) (opts : Options)
    (h : 1 ≤ xs.length) :
    ∃ l, rollingBallJs (.arr (xs.map JsValue.num)) opts = .ok l ∧
      l.length = xs.length := by
  have hne : ¬ ((xs.map JsValue.num).length = 0) := by
    simp only [List.length_map]
    omega
  refine ⟨rollingBall ((xs.map JsValue.num).map JsValue.toNum)
      (opts.windowM.getD (defaultWindowM (xs.map JsValue.num).length))
      (opts.windowS.getD (defaultWindowS (xs.map JsValue.num).length)),
    ?_, ?_⟩
  · simp only [rollingBallJs, if_neg hne]
  · simp [length_rollingBall]

theorem claim2_witness :
    ∃ l, rollingBallJs (.arr (([3, 1, 2] : List ℚ).map JsValue.num))
        ⟨some 1, none⟩ = .ok l ∧ l.length = ([3, 1, 2] : List ℚ).length :=
  claim2_length_preserved [3, 1, 2] ⟨some 1, none⟩ (by decide)

/-- C3: the empty array raises the empty-input error before producing any
output, and no valid non-empty array is ever answered with that error; an
empty input is never answered with an empty or default baseline. -/
theorem claim3_empty_input (opts : Options) :
    rollingBallJs (.arr []) opts = .error .emptyInput ∧
    ∀ elems : List JsValue, elems ≠ [] →
      rollingBallJs (.arr elems) opts ≠ .error .emptyInput := by
  constructor
  · rfl
  · intro elems hne
    have h0 : ¬ (elems.length = 0) := by simpa using hne
    simp only [rollingBallJs, if_neg h0]
    intro hc
    exact Except.noConfusion hc

theorem claim3_witness :
    rollingBallJs (.arr []) ⟨none, none⟩ = .error .emptyInput ∧
    rollingBallJs (.arr [.num 2]) ⟨none, none⟩ ≠ .error .emptyInput :=
  ⟨(claim3_empty_input ⟨none, none⟩).1,
    (claim3_empty_input ⟨none, none⟩).2 [.num 2] (List.cons_ne_nil _ _)⟩

/-- C4 counterexample: an array whose elements are strings — not a valid
sequence of numbers — is NOT rejected with the invalid-input error; the
computation proceeds and an ok result is returned (filled with NaN-garbage
in JavaScript).  This refutes the claim that every sequence containing
non-numeric elements raises InvalidInputError. -/
theorem claim4_counterexample :
    (rollingBallJs (.arr [.str ("a"), .str ("b")]) ⟨some 1, some 1⟩).isOk = true := rfl

/-- C4 (amended): `rollingBall` raises the invalid-input error exactly for
inputs that are not arrays (null, undefined, numbers, strings, booleans),
before any computation; an array is never rejected with this error, whatever
its elements are — an array of non-numbers is processed, not rejected. -/
theorem claim4_invalid_iff_not_array (v : JsValue) (opts : Options) :
    rollingBallJs v opts = .error .invalidInput ↔ isAnyArray v = false := by
  cases v with
  | arr elems =>
    simp only [rollingBallJs, isAnyArray]
    constructor
    · intro hc
      by_cases h0 : elems.length = 0
      · rw [if_pos h0] at hc
        exact RBError.noConfusion (Except.error.inj hc)
      · rw [if_neg h0] at hc
        exact Except.noConfusion hc
    · intro hc
      exact Bool.noConfusion hc
  | null => simp [rollingBallJs, isAnyArray]
  | undef => simp [rollingBallJs, isAnyArray]
  | bool b => simp [rollingBallJs, isAnyArray]
  | num q => simp [rollingBallJs, isAnyArray]
  | str s => simp [rollingBallJs, isAnyArray]

/-- C5: when the options are omitted, `windowM` defaults to
`Math.round(N * 0.04)` and `windowS` to `Math.round(N * 0.08)`, and the
result is identical to passing those radii explicitly. -/
theorem claim5_default_windows (elems : List JsValue) :
    rollingBallJs (.arr elems) ⟨none, none⟩ =
      rollingBallJs (.arr elems)
        ⟨some (mathRound ((elems.length : ℚ) * (4 / 100))),
         some (mathRound ((elems.length : ℚ) * (8 / 100)))⟩ := rfl

/-- C6: with `windowM = 0` every window of the first two passes has width 1,
so the minima pass is the identity on the signal and the maxima pass is the
identity on the minima: `minima = signal` and `maxima = signal`; no special
case is involved, only the general clipping formula. -/
theorem claim6_zero_radius (s : List ℚ) (_h : 1 ≤ s.length) :
    minimaPass s 0 = s ∧ maximaPass (minimaPass s 0) 0 = s := by
  refine ⟨minimaPass_zero s, ?_⟩
  rw [minimaPass_zero s, maximaPass_zero s]

theorem claim6_witness :
    minimaPass [2, 7, 5] 0 = [2, 7, 5] ∧
    maximaPass (minimaPass [2, 7, 5] 0) 0 = [2, 7, 5] :=
  claim6_zero_radius [2, 7, 5] (by decide)

/-- C7: on a constant signal of length N ≥ 1 every pass is the identity:
minima, maxima and the returned baseline all consist of the constant. -/
theorem claim7_constant (n : Nat) (c : ℚ) (wM wS : Nat) (_h : 1 ≤ n) :
    minimaPass (List.replicate n c) wM = List.replicate n c ∧
    maximaPass (minimaPass (List.replicate n c) wM) wM = List.replicate n c ∧
    rollingBall (List.replicate n c) wM wS = List.replicate n c := by
  refine ⟨minimaPass_replicate n wM c, ?_, rollingBall_replicate n c wM wS⟩
  rw [minimaPass_replicate n wM c, maximaPass_replicate n wM c]

theorem claim7_witness :
    minimaPass (List.replicate 4 (3 : ℚ)) 1 = List.replicate 4 (3 : ℚ) ∧
    maximaPass (minimaPass (List.replicate 4 (3 : ℚ)) 1) 1 =
      List.replicate 4 (3 : ℚ) ∧
    rollingBall (List.replicate 4 (3 : ℚ)) 1 2 = List.replicate 4 (3 : ℚ) :=
  claim7_constant 4 3 1 2 (by decide)

/-- C8: every baseline value is the unweighted mean of a window of maxima
values and lies within `[min(maxima), max(maxima)]` (the global minimum and
maximum of the maxima array); moreover each maxima value is at least the
minimum of the signal over the clipped window at the same index. -/
theorem claim8_bounds (s : List ℚ) (wM wS i : Nat) (_h1 : 1 ≤ s.length)
    (hi : i < s.length) :
    xMinValue (maximaPass (minimaPass s wM) wM) 0
        (maximaPass (minimaPass s wM) wM).length ≤
      (rollingBall s wM wS).getD i 0 ∧
    (rollingBall s wM wS).getD i 0 ≤
      xMaxValue (maximaPass (minimaPass s wM) wM) 0
        (maximaPass (minimaPass s wM) wM).length ∧
    xMinValue s (i - wM) (min (i + wM + 1) s.length) ≤
      (maximaPass (minimaPass s wM) wM).getD i 0 := by
  have hMlen : (maximaPass (minimaPass s wM) wM).length = s.length := by
    rw [length_maximaPass, length_minimaPass]
  have hiM : i < (maximaPass (minimaPass s wM) wM).length := by
    rw [hMlen]
    exact hi
  have hB : (rollingBall s wM wS).getD i 0 =
      xMean (sliceOf (maximaPass (minimaPass s wM) wM) (i - wS)
        (min (i + wS + 1) (maximaPass (minimaPass s wM) wM).length)) :=
    smoothPass_getD (maximaPass (minimaPass s wM) wM) wS i hiM
  have hslen : (sliceOf (maximaPass (minimaPass s wM) wM) (i - wS)
      (min (i + wS + 1) (maximaPass (minimaPass s wM) wM).length)).length ≠ 0 := by
    rw [length_sliceOf, hMlen]
    omega
  obtain ⟨c, t, hct⟩ : ∃ c t,
      sliceOf (maximaPass (minimaPass s wM) wM) (i - wS)
        (min (i + wS + 1) (maximaPass (minimaPass s wM) wM).length) = c :: t := by
    cases hcase : sliceOf (maximaPass (minimaPass s wM) wM) (i - wS)
        (min (i + wS + 1) (maximaPass (minimaPass s wM) wM).length) with
    | nil => rw [hcase] at hslen; simp at hslen
    | cons c t => exact ⟨c, t, rfl⟩
  refine ⟨?_, ?_, ?_⟩
  · rw [hB, hct]
    refine le_trans ?_ (foldl_min_le_xMean c t)
    apply xMinValue_global_le
    have hmem : t.foldl min c ∈ c :: t := foldl_min_mem t c
    rw [← hct] at hmem
    exact sliceOf_subset _ _ _ hmem
  · rw [hB, hct]
    refine le_trans (xMean_le_foldl_max c t) ?_
    apply le_xMaxValue_global
    have hmem : t.foldl max c ∈ c :: t := foldl_max_mem t c
    rw [← hct] at hmem
    exact sliceOf_subset _ _ _ hmem
  · have hmpt : (minimaPass s wM).getD i 0 =
        xMinValue s (i - wM) (min (i + wM + 1) s.length) :=
      minimaPass_getD s wM i hi
    have hMpt : (maximaPass (minimaPass s wM) wM).getD i 0 =
        xMaxValue (minimaPass s wM) (i - wM)
          (min (i + wM + 1) (minimaPass s wM).length) :=
      maximaPass_getD (minimaPass s wM) wM i
        (by rw [length_minimaPass]; exact hi)
    rw [hMpt, ← hmpt]
    apply mem_le_xMaxValue
    apply getD_mem_sliceOf
    · omega
    · rw [length_minimaPass]
      omega
    · exact min_le_right _ _

theorem claim8_witness :
    xMinValue (maximaPass (minimaPass [5, 1, 4] 1) 1) 0
        (maximaPass (minimaPass [5, 1, 4] 1) 1).length ≤
      (rollingBall [5, 1, 4] 1 1).getD 1 0 ∧
    (rollingBall [5, 1, 4] 1 1).getD 1 0 ≤
      xMaxValue (maximaPass (minimaPass [5, 1, 4] 1) 1) 0
        (maximaPass (minimaPass [5, 1, 4] 1) 1).length ∧
    xMinValue [5, 1, 4] (1 - 1) (min (1 + 1 + 1) ([5, 1, 4] : List ℚ).length) ≤
      (maximaPass (minimaPass [5, 1, 4] 1) 1).getD 1 0 :=
  claim8_bounds [5, 1, 4] 1 1 1 (by decide) (by decide)

/-- C9: on a single-point signal every window clips to the whole one-element
array, for all radii, so the baseline is the one-element signal itself. -/
theorem claim9_single_point (x : ℚ) (wM wS : Nat) :
    rollingBall [x] wM wS = [x] :=
  rollingBall_replicate 1 x wM wS

/-- C10: when `windowM ≥ N − 1` every minima-pass window clips to the whole
signal, so minima, maxima and the baseline are all constant sequences equal
to the global minimum of the signal, for every smoothing radius. -/
theorem claim10_full_window (s : List ℚ) (wM wS : Nat) (_h1 : 1 ≤ s.length)
    (hw : s.length - 1 ≤ wM) :
    minimaPass s wM = List.replicate s.length (xMinValue s 0 s.length) ∧
    maximaPass (minimaPass s wM) wM =
      List.replicate s.length (xMinValue s 0 s.length) ∧
    rollingBall s wM wS =
      List.replicate s.length (xMinValue s 0 s.length) := by
  have hmin := minimaPass_full s wM hw
  refine ⟨hmin, ?_, ?_⟩
  · rw [hmin, maximaPass_replicate]
  · show smoothPass (maximaPass (minimaPass s wM) wM) wS =
      List.replicate s.length (xMinValue s 0 s.length)
    rw [hmin, maximaPass_replicate, smoothPass_replicate]

theorem claim10_witness :
    minimaPass [3, 1, 2] 2 =
      List.replicate ([3, 1, 2] : List ℚ).length (xMinValue [3, 1, 2] 0 ([3, 1, 2] : List ℚ).length) ∧
    maximaPass (minimaPass [3, 1, 2] 2) 2 =
      List.replicate ([3, 1, 2] : List ℚ).length (xMinValue [3, 1, 2] 0 ([3, 1, 2] : List ℚ).length) ∧
    rollingBall [3, 1, 2] 2 5 =
      List.replicate ([3, 1, 2] : List ℚ).length (xMinValue [3, 1, 2] 0 ([3, 1, 2] : List ℚ).length) :=
  claim10_full_window [3, 1, 2] 2 5 (by decide) (by decide)

end RollingBall
